import Mathlib

/-!
Verification of the taoslog rolling-file appender and formatting layer.

This file gives a shallow embedding, in Lean, of the pure logic of the
`taoslog` crate (files `src/writer.rs`, `src/layer.rs`, `src/utils.rs`,
`src/lib.rs`) and proves properties of that logic.

Modelling conventions:
* Rust `u64`/`usize` values are `Nat`; where overflow matters the code is
  modelled with an explicit `% 2 ^ 64` or an explicit bound check, matching
  the checked parses (`str::parse`, `u64::from_str_radix`) of the source.
* Rust `f64` arithmetic in the disk-pressure gate is modelled with `ℚ`; the
  theorems about it assume a positive reserved size, the regime in which
  the rational and floating comparisons agree.
* Strings are handled at the `List Char` level (the source only ever deals
  with ASCII log file names and header values); `String` wrappers are used
  at function boundaries.
* The filesystem seen by the appender is a list of file names in the log
  directory; opening with `create_new` is modelled as membership testing
  plus consing, and deleting as filtering.
* `chrono` dates are modelled as their `YYYYMMDD` numeric codes together
  with a calendar-validity predicate mirroring what
  `NaiveDateTime::parse_from_str` accepts; local-time midnights are assumed
  to exist and be unique, as they do in the timezone the crate's own tests
  run in.
-/

namespace Taoslog

/-! ### Decimal and hexadecimal digit strings

`natToDecList` mirrors Rust's `format!("{}", n)` for unsigned integers and
`hexFixed 16` mirrors `format!("{:016x}", n)`.  Both are written with
structural (fuel) recursion so that every definition in this file can be
evaluated by the kernel.
-/

def natToDecAux : ℕ → ℕ → List Char
  | 0, _ => []
  | fuel + 1, n =>
    if n < 10 then [Nat.digitChar n]
    else natToDecAux fuel (n / 10) ++ [Nat.digitChar (n % 10)]

def natToDecList (n : ℕ) : List Char := natToDecAux (n + 1) n

def natToDec (n : ℕ) : String := ⟨natToDecList n⟩

theorem natToDecAux_fuel_irrel (n : ℕ) :
    ∀ f g, n < f → n < g → natToDecAux f n = natToDecAux g n := by
  induction n using Nat.strong_induction_on with
  | _ n ih =>
    intro f g hf hg
    match f, g, hf, hg with
    | f + 1, g + 1, hf, hg =>
      by_cases h : n < 10
      · simp [natToDecAux, h]
      · have hd : n / 10 < n := Nat.div_lt_self (by omega) (by omega)
        simp only [natToDecAux, h, if_false]
        rw [ih _ hd f g (by omega) (by omega)]

theorem natToDecList_unfold (n : ℕ) :
    natToDecList n =
      if n < 10 then [Nat.digitChar n]
      else natToDecList (n / 10) ++ [Nat.digitChar (n % 10)] := by
  by_cases h : n < 10
  · simp [natToDecList, natToDecAux, h]
  · have hd : n / 10 < n := Nat.div_lt_self (by omega) (by omega)
    have h1 : natToDecAux (n + 1) n = natToDecAux n (n / 10) ++ [Nat.digitChar (n % 10)] := by
      simp [natToDecAux, h]
    have h2 : natToDecAux n (n / 10) = natToDecAux (n / 10 + 1) (n / 10) :=
      natToDecAux_fuel_irrel (n / 10) n (n / 10 + 1) (by omega) (by omega)
    simp [natToDecList, h1, h2, h]

theorem natToDecList_ne_nil (n : ℕ) : natToDecList n ≠ [] := by
  rw [natToDecList_unfold]
  by_cases h : n < 10 <;> simp [h]

theorem digitChar_isDigit : ∀ d, d < 10 → (Nat.digitChar d).isDigit = true := by decide

theorem digitChar_val : ∀ d, d < 10 → (Nat.digitChar d).toNat - 48 = d := by decide

theorem natToDecList_all_digits (n : ℕ) : (natToDecList n).all Char.isDigit = true := by
  induction n using Nat.strong_induction_on with
  | _ n ih =>
    rw [natToDecList_unfold]
    by_cases h : n < 10
    · simp [h, digitChar_isDigit n h]
    · have hd : n / 10 < n := Nat.div_lt_self (by omega) (by omega)
      simp [h, ih _ hd, digitChar_isDigit (n % 10) (Nat.mod_lt n (by omega))]

theorem natToDecList_length_le {n k : ℕ} (hk : 1 ≤ k) (h : n < 10 ^ k) :
    (natToDecList n).length ≤ k := by
  induction k generalizing n with
  | zero => omega
  | succ k ih =>
    rw [natToDecList_unfold]
    by_cases hsm : n < 10
    · simp [hsm]
    · have hk1 : 1 ≤ k := by
        by_contra hc
        have hk0 : k = 0 := by omega
        subst hk0; simp at h; omega
      have hlt : n / 10 < 10 ^ k := by
        rw [Nat.div_lt_iff_lt_mul (by omega : (0:ℕ) < 10)]
        calc n < 10 ^ (k + 1) := h
        _ = 10 ^ k * 10 := by ring
      simp only [hsm, if_false, List.length_append, List.length_cons, List.length_nil]
      have := ih hk1 hlt
      omega

/-- Value of a digit string, as computed by folding `acc * 10 + digit`;
this is the value `str::parse` assigns to a string of ASCII digits. -/
def decValue (cs : List Char) : ℕ := cs.foldl (fun a c => a * 10 + (c.toNat - 48)) 0

theorem decValue_go (cs : List Char) :
    ∀ a, cs.foldl (fun a c => a * 10 + (c.toNat - 48)) a =
      a * 10 ^ cs.length + decValue cs := by
  induction cs with
  | nil => intro a; simp [decValue]
  | cons c cs ih =>
    intro a
    simp only [List.foldl_cons, decValue, List.length_cons]
    rw [ih (a * 10 + (c.toNat - 48)), ih (0 * 10 + (c.toNat - 48))]
    ring

theorem decValue_natToDecList (n : ℕ) : decValue (natToDecList n) = n := by
  induction n using Nat.strong_induction_on with
  | _ n ih =>
    rw [natToDecList_unfold]
    by_cases h : n < 10
    · simp only [h, if_true, decValue, List.foldl_cons, List.foldl_nil]
      rw [digitChar_val n h]
      omega
    · have hd : n / 10 < n := Nat.div_lt_self (by omega) (by omega)
      simp only [h, if_false, decValue, List.foldl_append, List.foldl_cons, List.foldl_nil]
      have hrec := ih _ hd
      rw [show (List.foldl (fun a c => a * 10 + (c.toNat - 48)) 0 (natToDecList (n / 10)))
            = decValue (natToDecList (n / 10)) from rfl, hrec]
      rw [digitChar_val (n % 10) (Nat.mod_lt n (by omega))]
      omega

theorem decValue_replicate_zero (k : ℕ) (cs : List Char) :
    decValue (List.replicate k '0' ++ cs) = decValue cs := by
  induction k with
  | zero => simp
  | succ k ih => simpa [decValue, List.replicate_succ] using ih

/-! ### The size parser (`parse_unit_size`) -/

/-- Rust's `str::parse::<u64>` on a list of characters: an optional leading
`'+'`, then a nonempty run of ASCII digits, rejecting values `≥ 2 ^ 64`. -/
def parseU64Dec (cs : List Char) : Option ℕ :=
  let t := if cs.head? = some '+' then cs.tail else cs
  if t ≠ [] ∧ t.all Char.isDigit = true ∧ decValue t < 2 ^ 64 then some (decValue t)
  else none

/-- `unit.to_ascii_uppercase()` compared against `"KB" | "MB" | "GB"`:
the multiplier selected by the two unit characters, case-insensitively. -/
def unitMul (u1 u2 : Char) : Option ℕ :=
  if (u1 = 'K' ∨ u1 = 'k') ∧ (u2 = 'B' ∨ u2 = 'b') then some 1024
  else if (u1 = 'M' ∨ u1 = 'm') ∧ (u2 = 'B' ∨ u2 = 'b') then some (1024 * 1024)
  else if (u1 = 'G' ∨ u1 = 'g') ∧ (u2 = 'B' ∨ u2 = 'b') then some (1024 * 1024 * 1024)
  else none

/-- `parse_unit_size` from `src/writer.rs`: requires length `≥ 3` and an
ASCII string, splits off the last two characters as the unit, parses the
prefix as a `u64` count and multiplies by the unit (wrapping at `2 ^ 64`,
as the release-mode `u64` multiplication does).  `none` models the
`InvalidRotationSize` error. -/
def parse_unit_size (size : String) : Option ℕ :=
  let cs := size.data
  if cs.length < 3 then none
  else if cs.all (fun c => c.toNat < 128) then
    let count := cs.take (cs.length - 2)
    let unit := cs.drop (cs.length - 2)
    match parseU64Dec count, unit with
    | some n, [u1, u2] =>
      match unitMul u1 u2 with
      | some m => some (n * m % 2 ^ 64)
      | none => none
    | _, _ => none
  else none

theorem char_isDigit_ascii {c : Char} (h : c.isDigit = true) : c.toNat < 128 := by
  simp [Char.isDigit] at h
  exact Nat.lt_of_le_of_lt h.2 (by norm_num)

theorem parseU64Dec_eq_some {cs : List Char} {n : ℕ} :
    parseU64Dec cs = some n ↔
      ((if cs.head? = some '+' then cs.tail else cs) ≠ []
        ∧ (if cs.head? = some '+' then cs.tail else cs).all Char.isDigit = true
        ∧ decValue (if cs.head? = some '+' then cs.tail else cs) = n
        ∧ n < 2 ^ 64) := by
  have key : ∀ t : List Char,
      (if t ≠ [] ∧ t.all Char.isDigit = true ∧ decValue t < 2 ^ 64
        then some (decValue t) else none) = some n ↔
      (t ≠ [] ∧ t.all Char.isDigit = true ∧ decValue t = n ∧ n < 2 ^ 64) := by
    intro t
    split_ifs with hd
    · obtain ⟨h1, h2, h3⟩ := hd
      constructor
      · intro h
        injection h with h
        exact ⟨h1, h2, h, h ▸ h3⟩
      · rintro ⟨-, -, rfl, -⟩
        rfl
    · constructor
      · intro h; exact absurd h (by simp)
      · rintro ⟨h1, h2, rfl, h4⟩
        exact absurd ⟨h1, h2, h4⟩ hd
  simp only [parseU64Dec]
  exact key _

theorem parseU64Dec_ne_nil {cs : List Char} {n : ℕ} (h : parseU64Dec cs = some n) :
    cs ≠ [] := by
  intro hnil
  subst hnil
  simp [parseU64Dec] at h

theorem parseU64Dec_ascii {cs : List Char} {n : ℕ} (h : parseU64Dec cs = some n) :
    cs.all (fun c => decide (c.toNat < 128)) = true := by
  obtain ⟨hne, hdig, -, -⟩ := parseU64Dec_eq_some.mp h
  simp only [List.all_eq_true, decide_eq_true_eq]
  intro c hc
  by_cases hp : cs.head? = some '+'
  · rw [if_pos hp] at hne hdig
    match cs, hp, hc with
    | c0 :: r, hp, hc =>
      simp only [List.head?_cons, Option.some.injEq] at hp
      subst hp
      simp only [List.tail_cons, List.all_eq_true] at hdig
      rcases List.mem_cons.mp hc with rfl | hc
      · decide
      · exact char_isDigit_ascii (hdig c hc)
  · rw [if_neg hp] at hne hdig
    simp only [List.all_eq_true] at hdig
    exact char_isDigit_ascii (hdig c hc)

theorem unitMul_ascii {u1 u2 : Char} {m : ℕ} (h : unitMul u1 u2 = some m) :
    u1.toNat < 128 ∧ u2.toNat < 128 := by
  unfold unitMul at h
  split_ifs at h with h1 h2 h3
  · rcases h1 with ⟨h1 | h1, h2 | h2⟩ <;> subst_vars <;> decide
  · rcases h2 with ⟨h1 | h1, h2 | h2⟩ <;> subst_vars <;> decide
  · rcases h3 with ⟨h1 | h1, h2 | h2⟩ <;> subst_vars <;> decide

/-- C5, counterexample: the claim admits every natural-number count, but the
source parses the count with `str::parse::<u64>`, so the count `2 ^ 64`
with a perfectly well-formed digit prefix and `KB` suffix is rejected with
`InvalidRotationSize` instead of yielding `2 ^ 64 * 1024`. -/
theorem parse_unit_size_overflow_cex :
    parse_unit_size ⟨natToDecList (2 ^ 64) ++ ['K', 'B']⟩ = none
    ∧ (natToDecList (2 ^ 64)).all Char.isDigit = true
    ∧ natToDecList (2 ^ 64) ≠ [] :=
  ⟨by decide, natToDecList_all_digits _, natToDecList_ne_nil _⟩

/-- C5, amended: `parse_unit_size` succeeds exactly on strings that split
into a prefix accepted by `u64` parsing (an optional leading `'+'`, then
decimal digits, value below `2 ^ 64`) followed by a two-character unit
matching `KB`, `MB` or `GB` case-insensitively; the result is the count
times `2 ^ 10`, `2 ^ 20` or `2 ^ 30`, reduced modulo `2 ^ 64`. -/
theorem parse_unit_size_characterization (s : String) (v : ℕ) :
    parse_unit_size s = some v ↔
      ∃ cs u1 u2 count m,
        s.data = cs ++ [u1, u2] ∧
        parseU64Dec cs = some count ∧
        unitMul u1 u2 = some m ∧
        v = count * m % 2 ^ 64 := by
  constructor
  · intro h
    simp only [parse_unit_size] at h
    by_cases h1 : s.data.length < 3
    · rw [if_pos h1] at h; exact absurd h (by simp)
    rw [if_neg h1] at h
    by_cases h2 : s.data.all (fun c => decide (c.toNat < 128)) = true
    rotate_left
    · rw [if_neg h2] at h; exact absurd h (by simp)
    rw [if_pos h2] at h
    have hd2 : (s.data.drop (s.data.length - 2)).length = 2 := by
      rw [List.length_drop]
      omega
    obtain ⟨u1, u2, hu⟩ := List.length_eq_two.mp hd2
    rw [hu] at h
    cases hc : parseU64Dec (s.data.take (s.data.length - 2)) with
    | none => rw [hc] at h; exact absurd h (by simp)
    | some count =>
      rw [hc] at h
      cases hm : unitMul u1 u2 with
      | none => simp only [hm] at h; exact absurd h (by simp)
      | some m =>
        simp only [hm, Option.some.injEq] at h
        refine ⟨s.data.take (s.data.length - 2), u1, u2, count, m, ?_, hc, hm, h.symm⟩
        conv_lhs => rw [← List.take_append_drop (s.data.length - 2) s.data]
        rw [hu]
  · rintro ⟨cs, u1, u2, count, m, hdata, hcnt, hmul, hv⟩
    have hne : cs ≠ [] := parseU64Dec_ne_nil hcnt
    have hlen : s.data.length = cs.length + 2 := by rw [hdata]; simp
    have hcs1 : 1 ≤ cs.length := by
      cases cs with
      | nil => exact absurd rfl hne
      | cons a r => simp
    have h3 : ¬ s.data.length < 3 := by omega
    have hascii : s.data.all (fun c => decide (c.toNat < 128)) = true := by
      rw [hdata, List.all_append]
      refine Bool.and_eq_true_iff.mpr ⟨parseU64Dec_ascii hcnt, ?_⟩
      obtain ⟨ha1, ha2⟩ := unitMul_ascii hmul
      simp [ha1, ha2]
    have htake : s.data.take (s.data.length - 2) = cs := by
      rw [hdata]
      simpa using List.take_left cs [u1, u2]
    have hdrop : s.data.drop (s.data.length - 2) = [u1, u2] := by
      rw [hdata]
      simpa using List.drop_left cs [u1, u2]
    simp only [parse_unit_size]
    rw [if_neg h3, if_pos hascii, htake, hdrop, hcnt]
    simp [hmul, hv]

/-! ### The filename codec

The directory scan, retention worker and rotation logic all recognize log
files with the anchored regex

  `^<component>_<instance>_(?<date>\d{8})\.log(\.(?<index1>\d+)|\.gz|\.(?<index2>\d+)\.gz)?$`

compiled in `parse_filename` (`src/writer.rs`), followed by a `chrono`
parse of the date field.  The functions below are a direct model of that
matching for components consisting of regex-literal characters (the regex
interpolates the component verbatim, so metacharacters in a component
would change its meaning), with `\d` read as the ASCII digits that
`usize`/`chrono` parsing accepts downstream.
-/

/-- Anchored literal match: strip `pat` from the front of `s`. -/
def matchLiteral : List Char → List Char → Option (List Char)
  | [], s => some s
  | _ :: _, [] => none
  | p :: ps, c :: cs => if p = c then matchLiteral ps cs else none

theorem matchLiteral_append (p s : List Char) : matchLiteral p (p ++ s) = some s := by
  induction p with
  | nil => rfl
  | cons c cs ih => simp [matchLiteral, ih]

def isLeapYear (y : ℕ) : Bool := (y % 4 = 0 ∧ y % 100 ≠ 0) ∨ y % 400 = 0

def daysInMonth (y m : ℕ) : ℕ :=
  if m = 2 then (if isLeapYear y then 29 else 28)
  else if m = 4 ∨ m = 6 ∨ m = 9 ∨ m = 11 then 30
  else 31

/-- Calendar validity of a `YYYYMMDD` code, as enforced by
`NaiveDateTime::parse_from_str(.., "%Y%m%d %H%M%S")` in `parse_date_str`. -/
def validDateCode (v : ℕ) : Bool :=
  let m := v / 100 % 100
  let d := v % 100
  1 ≤ m ∧ m ≤ 12 ∧ 1 ≤ d ∧ d ≤ daysInMonth (v / 10000) m

/-- `parse_date_str` on an 8-digit field, returning the numeric date code
(dates compare the same way as the `DateTime<Local>` values they denote). -/
def parseDate8 (cs : List Char) : Option ℕ :=
  let v := decValue cs
  if validDateCode v then some v else none

/-- The value the source assigns to a captured `\d+` sequence index:
`m.as_str().parse().ok()` followed by `unwrap_or_default()`, so an index
that overflows `usize` silently becomes 0. -/
def seqVal (ds : List Char) : ℕ :=
  if decValue ds < 2 ^ 64 then decValue ds else 0

/-- The optional suffix group `(\.(?<index1>\d+)|\.gz|\.(?<index2>\d+)\.gz)?`
anchored at the end of the name, together with the index extraction. -/
def parseSuffix : List Char → Option ℕ
  | [] => some 0
  | '.' :: t =>
    if t ≠ [] ∧ t.all Char.isDigit = true then some (seqVal t)
    else if t = ['g', 'z'] then some 0
    else if t.drop (t.length - 3) = ['.', 'g', 'z']
        ∧ t.take (t.length - 3) ≠ []
        ∧ (t.take (t.length - 3)).all Char.isDigit = true then
      some (seqVal (t.take (t.length - 3)))
    else none
  | _ => none

/-- `parse_filename` from `src/writer.rs`, for the regex built from the
given component and instance id (see `parse_filename_cached` for the
`OnceLock` behaviour of the source, which reuses the first regex). -/
def parse_filename (component : String) (instance_id : ℕ) (name : String) : Option (ℕ × ℕ) :=
  match matchLiteral (component.data ++ '_' :: natToDecList instance_id ++ ['_']) name.data with
  | none => none
  | some rest =>
    let dateCs := rest.take 8
    if dateCs.length = 8 ∧ dateCs.all Char.isDigit = true then
      match matchLiteral ['.', 'l', 'o', 'g'] (rest.drop 8) with
      | none => none
      | some tail =>
        match parseSuffix tail, parseDate8 dateCs with
        | some seq, some date => some (date, seq)
        | _, _ => none
    else none

/-- The `%Y%m%d` rendering of a date code: four-digit year, two-digit
month, two-digit day, i.e. the code zero-padded to eight digits. -/
def pad8 (n : ℕ) : List Char :=
  List.replicate (8 - (natToDecList n).length) '0' ++ natToDecList n

def logFileBase (component : String) (instance_id : ℕ) (date : ℕ) : List Char :=
  component.data ++ '_' :: natToDecList instance_id ++ '_' :: pad8 date ++ ['.', 'l', 'o', 'g']

/-- The filename written by `RollingFileAppenderBuilder::build` and by the
time-rotation branch of `rotate`: the unsuffixed form for `seq = 0` and
`<base>.log.<seq>` otherwise. -/
def encode_filename (component : String) (instance_id : ℕ) (date seq : ℕ) : String :=
  if seq = 0 then ⟨logFileBase component instance_id date⟩
  else ⟨logFileBase component instance_id date ++ '.' :: natToDecList seq⟩

/-- The always-suffixed filename used by the size-rotation loop and by the
nonzero case of the self-heal loop (`format!("{}_{}_{}.log.{}", ..)`). -/
def suffixed_filename (component : String) (instance_id : ℕ) (date seq : ℕ) : String :=
  ⟨logFileBase component instance_id date ++ '.' :: natToDecList seq⟩

/-- Characters the regex engine treats as themselves; the embedding of
`parse_filename` is faithful for components drawn from these. -/
def isRegexLiteralChar (c : Char) : Bool := c.isAlphanum ∨ c = '_' ∨ c = '-'

theorem pad8_length {n : ℕ} (h : n < 10 ^ 8) : (pad8 n).length = 8 := by
  have hle : (natToDecList n).length ≤ 8 := natToDecList_length_le (by omega) h
  simp only [pad8, List.length_append, List.length_replicate]
  omega

theorem pad8_digits (n : ℕ) : (pad8 n).all Char.isDigit = true := by
  simp only [pad8, List.all_append, Bool.and_eq_true]
  refine ⟨?_, natToDecList_all_digits n⟩
  simp only [List.all_eq_true]
  intro c hc
  rw [List.eq_of_mem_replicate hc]
  decide

theorem decValue_pad8 (n : ℕ) : decValue (pad8 n) = n := by
  rw [pad8, decValue_replicate_zero, decValue_natToDecList]

/-- C4: round-trip of the filename codec.  The hypotheses delimit the
domain the source actually operates in: a component made of regex-literal
characters (it is interpolated verbatim into the regex), a `u8` instance
id, a calendar-valid date whose `%Y` rendering has four digits, and a
sequence number representable in `usize`. -/
theorem parse_encode_roundtrip (component : String) (instance_id date seq : ℕ)
    (hcomp : component.data.all isRegexLiteralChar = true)
    (hinst : instance_id < 256)
    (hd8 : date < 10 ^ 8)
    (hdv : validDateCode date = true)
    (hseq : seq < 2 ^ 64) :
    parse_filename component instance_id (encode_filename component instance_id date seq)
      = some (date, seq) := by
  have hbase : logFileBase component instance_id date
      = (component.data ++ '_' :: natToDecList instance_id ++ ['_'])
        ++ (pad8 date ++ (['.', 'l', 'o', 'g'] ++ [])) := by
    simp [logFileBase]
  have hlen8 := pad8_length hd8
  have step : ∀ sfx : List Char, parseSuffix sfx = some seq →
      parse_filename component instance_id ⟨logFileBase component instance_id date ++ sfx⟩
        = some (date, seq) := by
    intro sfx hsfx
    have hdataeq : (⟨logFileBase component instance_id date ++ sfx⟩ : String).data
        = (component.data ++ '_' :: natToDecList instance_id ++ ['_'])
          ++ (pad8 date ++ (['.', 'l', 'o', 'g'] ++ sfx)) := by
      show logFileBase component instance_id date ++ sfx = _
      simp [logFileBase]
    rw [parse_filename, hdataeq, matchLiteral_append]
    have htake : (pad8 date ++ (['.', 'l', 'o', 'g'] ++ sfx)).take 8 = pad8 date := by
      rw [← hlen8]
      exact List.take_left _ _
    have hdrop : (pad8 date ++ (['.', 'l', 'o', 'g'] ++ sfx)).drop 8
        = ['.', 'l', 'o', 'g'] ++ sfx := by
      rw [← hlen8]
      exact List.drop_left _ _
    simp only [htake, hdrop]
    rw [if_pos ⟨hlen8, pad8_digits date⟩, matchLiteral_append]
    simp [hsfx, parseDate8, decValue_pad8, hdv]
  by_cases hz : seq = 0
  · subst hz
    have := step [] rfl
    rw [encode_filename, if_pos rfl]
    simpa using this
  · have hsfx : parseSuffix ('.' :: natToDecList seq) = some seq := by
      show (if natToDecList seq ≠ [] ∧ (natToDecList seq).all Char.isDigit = true
          then some (seqVal (natToDecList seq))
          else _) = some seq
      rw [if_pos ⟨natToDecList_ne_nil seq, natToDecList_all_digits seq⟩]
      simp only [seqVal, decValue_natToDecList]
      rw [if_pos hseq]
    have := step ('.' :: natToDecList seq) hsfx
    rw [encode_filename, if_neg hz]
    simpa using this

/-- C4, witness. -/
theorem parse_encode_roundtrip_witness :
    parse_filename "taosx" 1 (encode_filename "taosx" 1 20240909 3) = some (20240909, 3) :=
  parse_encode_roundtrip "taosx" 1 20240909 3 (by decide) (by decide) (by decide)
    (by decide) (by decide)

/-- The `OnceLock` cache around the regex in `parse_filename`: the regex is
compiled from the component and instance id of the first call and reused,
unchanged, by every later call.  The cache state is threaded explicitly. -/
def parse_filename_cached (cache : Option (String × ℕ)) (component : String)
    (instance_id : ℕ) (name : String) :
    Option (String × ℕ) × Option (ℕ × ℕ) :=
  let key := cache.getD (component, instance_id)
  (some key, parse_filename key.1 key.2 name)

/-- C10: after the first call fills the `OnceLock` with `(c₁, i₁)`, every
subsequent call parses with the first configuration, whatever arguments it
receives; concretely, a later `("other", 2)` caller accepts a `taosx_1`
filename and rejects its own `other_2` filename, the opposite of what a
fresh parse with its own arguments would do. -/
theorem parse_filename_cached_uses_first_config :
    (∀ (c₁ : String) (i₁ : ℕ) (c₂ : String) (i₂ : ℕ) (name : String),
        parse_filename_cached (some (c₁, i₁)) c₂ i₂ name
          = (some (c₁, i₁), parse_filename c₁ i₁ name))
  ∧ (∀ (c : String) (i : ℕ) (name : String),
        parse_filename_cached none c i name = (some (c, i), parse_filename c i name))
  ∧ ((parse_filename_cached (some ("taosx", 1)) "other" 2 "taosx_1_20240909.log").2
        = some (20240909, 0)
      ∧ parse_filename "other" 2 "taosx_1_20240909.log" = none
      ∧ (parse_filename_cached (some ("taosx", 1)) "other" 2 "other_2_20240909.log").2 = none
      ∧ parse_filename "other" 2 "other_2_20240909.log" = some (20240909, 0)) :=
  ⟨fun _ _ _ _ _ => rfl, fun _ _ _ => rfl, by decide⟩

/-! ### Appender configuration and the retention worker

`Config` carries the fields of the source's `Config` struct that the pure
logic reads (the log directory is left implicit: the model works with bare
file names, and `rotation.time_delta` is folded into the precomputed
`next_timestamp` of the rotation environment).  The misspelt
`reserced_disk_size` field name is the source's own. -/

structure Config where
  component_name : String
  instance_id : ℕ
  rotation_file_size : ℕ
  reserced_disk_size : ℕ
  compress : Bool
  rotate_count : ℕ
  stop_logging_threshold : ℚ
deriving DecidableEq

/-- `filename_cmp` from `src/writer.rs`: date first, then sequence. -/
def filename_cmp (a b : ℕ × ℕ) : Ordering :=
  match compare a.1 b.1 with
  | Ordering.eq => compare a.2 b.2
  | p => p

/-- The `≤` test induced by `filename_cmp`, as used by the stable
`sort_by` in `handle_old_files`. -/
def filename_le (a b : ℕ × ℕ) : Bool := filename_cmp a b ≠ Ordering.gt

/-- Effect of `compress(path)` on the directory listing: open `f`, create
`f.gz` fresh (skip everything if it already exists), and remove `f`;
failures are absorbed by the caller. -/
def compressFs (f : String) (dir : List String) : List String :=
  if f ∈ dir then
    if (f ++ ".gz") ∈ dir then dir
    else (f ++ ".gz") :: dir.erase f
  else dir

/-- The compression step at the top of `handle_old_files`: only when a
just-rotated file is supplied, compression is enabled and
`rotate_count != 1`. -/
def compressUpdate (cfg : Config) (compress_file : Option String) (dir : List String) :
    List String :=
  match compress_file with
  | some f => if cfg.compress = true ∧ cfg.rotate_count ≠ 1 then compressFs f dir else dir
  | none => dir

/-- The directory entries whose names parse for the configured component
and instance, paired with their `(date, seq)` keys. -/
def matchedFiles (cfg : Config) (dir : List String) : List (String × (ℕ × ℕ)) :=
  dir.filterMap (fun name =>
    (parse_filename cfg.component_name cfg.instance_id name).map (fun r => (name, r)))

/-- `handle_old_files` from `src/writer.rs`, acting on the directory
listing: compress the just-closed file, then (unless `rotate_count == 0`)
list matching files, sort ascending by `(date, seq)` and delete the
`len - rotate_count` oldest. -/
def handle_old_files (cfg : Config) (compress_file : Option String) (dir : List String) :
    List String :=
  let dir1 := compressUpdate cfg compress_file dir
  if cfg.rotate_count = 0 then dir1
  else
    let files := matchedFiles cfg dir1
    let sorted := files.mergeSort (fun a b => filename_le a.2 b.2)
    let deleted := (sorted.take (files.length - cfg.rotate_count)).map Prod.fst
    dir1.filter (fun n => ¬ n ∈ deleted)

theorem compressFs_nodup (f : String) {dir : List String} (h : dir.Nodup) :
    (compressFs f dir).Nodup := by
  unfold compressFs
  split_ifs with h1 h2
  · exact h
  · refine List.nodup_cons.mpr ⟨fun hc => h2 (List.mem_of_mem_erase hc), h.erase f⟩
  · exact h

theorem compressUpdate_nodup (cfg : Config) (compress_file : Option String)
    {dir : List String} (h : dir.Nodup) : (compressUpdate cfg compress_file dir).Nodup := by
  unfold compressUpdate
  cases compress_file with
  | none => exact h
  | some f =>
    split_ifs with h1
    · exact compressFs_nodup f h
    · exact h

theorem matchedFiles_map_fst (cfg : Config) (dir : List String) :
    (matchedFiles cfg dir).map Prod.fst
      = dir.filter (fun n => (parse_filename cfg.component_name cfg.instance_id n).isSome) := by
  induction dir with
  | nil => rfl
  | cons a l ih =>
    simp only [matchedFiles, List.filterMap_cons] at *
    cases h : parse_filename cfg.component_name cfg.instance_id a with
    | none => simpa [List.filter_cons, h] using ih
    | some r => simpa [List.filter_cons, h] using ih

theorem length_filter_not_mem :
    ∀ (del M : List String), M.Nodup → del.Nodup → (∀ x ∈ del, x ∈ M) →
      (M.filter (fun n => ¬ n ∈ del)).length = M.length - del.length := by
  intro del
  induction del with
  | nil => intro M _ _ _; simp
  | cons d ds ih =>
    intro M hM hdel hsub
    have hdM : d ∈ M := hsub d (by simp)
    have hds : ds.Nodup := List.Nodup.of_cons hdel
    have hdnotin : d ∉ ds := (List.nodup_cons.mp hdel).1
    have hstep : M.filter (fun n => ¬ n ∈ (d :: ds)) = (M.erase d).filter (fun n => ¬ n ∈ ds) := by
      rw [List.Nodup.erase_eq_filter hM, List.filter_filter]
      apply List.filter_congr
      intro x hx
      by_cases hxd : x = d
      · subst hxd; simp
      · simp [hxd]
    rw [hstep, ih (M.erase d) (hM.erase d) hds ?_]
    · rw [List.length_erase_of_mem hdM]
      simp only [List.length_cons]
      omega
    · intro x hx
      refine (List.mem_erase_of_ne ?_).mpr (hsub x (by simp [hx]))
      intro he
      exact hdnotin (by rw [← he]; exact hx)

/-- C3: after a retention pass with `rotate_count = N > 0`, at most `N`
files whose names parse for the configured component and instance remain
in the (duplicate-free) directory; with `rotate_count = 0` the pruning
step deletes nothing, leaving exactly the outcome of the compression
step. -/
theorem handle_old_files_retention (cfg : Config) (compress_file : Option String)
    (dir : List String) (hnd : dir.Nodup) :
    (0 < cfg.rotate_count →
      ((handle_old_files cfg compress_file dir).filter
          (fun n => (parse_filename cfg.component_name cfg.instance_id n).isSome)).length
        ≤ cfg.rotate_count)
  ∧ (cfg.rotate_count = 0 →
      handle_old_files cfg compress_file dir = compressUpdate cfg compress_file dir) := by
  have hnd1 : (compressUpdate cfg compress_file dir).Nodup := compressUpdate_nodup cfg compress_file hnd
  constructor
  · intro hN
    have hne : ¬ cfg.rotate_count = 0 := by omega
    simp only [handle_old_files, if_neg hne]
    generalize hdir1 : compressUpdate cfg compress_file dir = dir1 at hnd1 ⊢
    set P : String → Bool := fun n => (parse_filename cfg.component_name cfg.instance_id n).isSome
      with hP
    set files := matchedFiles cfg dir1 with hfiles
    set sorted := files.mergeSort (fun a b => filename_le a.2 b.2) with hsorted
    set del := (sorted.take (files.length - cfg.rotate_count)).map Prod.fst with hdel
    have hMfst : files.map Prod.fst = dir1.filter P := matchedFiles_map_fst cfg dir1
    have hMnd : (dir1.filter P).Nodup := hnd1.filter P
    have hperm : sorted.Perm files := List.mergeSort_perm files _
    have hfstperm : (sorted.map Prod.fst).Perm (dir1.filter P) := by
      rw [← hMfst]
      exact hperm.map Prod.fst
    have hfstnd : (sorted.map Prod.fst).Nodup := hfstperm.symm.nodup hMnd
    have hdeleq : del = (sorted.map Prod.fst).take (files.length - cfg.rotate_count) := by
      rw [hdel, List.map_take]
    have hdelnd : del.Nodup := by
      rw [hdeleq]
      exact (List.take_sublist _ _).nodup hfstnd
    have hdelsub : ∀ x ∈ del, x ∈ dir1.filter P := by
      intro x hx
      rw [hdeleq] at hx
      exact hfstperm.mem_iff.mp (List.take_subset _ _ hx)
    have hdellen : del.length = files.length - cfg.rotate_count := by
      rw [hdeleq, List.length_take, List.length_map,
        List.length_mergeSort]
      omega
    have hfleneq : (dir1.filter P).length = files.length := by
      rw [← hMfst, List.length_map]
    have hcomm : (dir1.filter (fun n => ¬ n ∈ del)).filter P
        = (dir1.filter P).filter (fun n => ¬ n ∈ del) := by
      rw [List.filter_filter, List.filter_filter]
      apply List.filter_congr
      intro x hx
      exact Bool.and_comm _ _
    rw [hcomm, length_filter_not_mem del (dir1.filter P) hMnd hdelnd hdelsub,
      hfleneq, hdellen]
    omega
  · intro h0
    simp [handle_old_files, h0]

def cfgC3 : Config :=
  { component_name := "taosx", instance_id := 1, rotation_file_size := 1024,
    reserced_disk_size := 2048, compress := false, rotate_count := 1,
    stop_logging_threshold := 1 / 2 }

def dirC3 : List String :=
  ["taosx_1_20240909.log", "taosx_1_20240909.log.1", "notes.txt"]

/-- C3, witness. -/
theorem handle_old_files_retention_witness :
    dirC3.Nodup ∧
    ((0 < cfgC3.rotate_count →
      ((handle_old_files cfgC3 none dirC3).filter
          (fun n => (parse_filename cfgC3.component_name cfgC3.instance_id n).isSome)).length
        ≤ cfgC3.rotate_count)
    ∧ (cfgC3.rotate_count = 0 →
      handle_old_files cfgC3 none dirC3 = compressUpdate cfgC3 none dirC3)) :=
  ⟨by decide, handle_old_files_retention cfgC3 none dirC3 (by decide)⟩

/-! ### The disk-pressure write gate (`make_writer_for`) -/

/-- `tracing::Level`.  Its natural ordering (the one `level > &Level::ERROR`
and `level >= &Level::DEBUG` in the source use) has ERROR smallest and
TRACE largest; `rank` realizes it. -/
inductive Level
  | trace
  | debug
  | info
  | warn
  | error
deriving DecidableEq

def Level.rank : Level → ℕ
  | .error => 0
  | .warn => 1
  | .info => 2
  | .debug => 3
  | .trace => 4

/-- The two writers `make_writer_for` can hand back: the shared rolling
file writer, or `std::io::empty()` which discards the event. -/
inductive WriterKind
  | rolling
  | null
deriving DecidableEq

/-- The gating logic of `make_writer_for` in `src/writer.rs` (the marker
lines written on downgrade-flag transitions touch only the file contents,
not which writer is returned).  The `f64` ratio test
`free as f64 / reserved as f64 <= stop` is modelled over `ℚ`. -/
def make_writer_for (cfg : Config) (disk_available_space : ℕ) (level : Level) : WriterKind :=
  if (disk_available_space : ℚ) / (cfg.reserced_disk_size : ℚ) ≤ cfg.stop_logging_threshold then
    WriterKind.null
  else if disk_available_space ≤ cfg.reserced_disk_size ∧ Level.rank Level.error < level.rank then
    WriterKind.null
  else
    WriterKind.rolling

/-- C1: the degradation ladder.  With a positive reserved size (the regime
where the rational model of the `f64` division is faithful), the returned
writer is the null sink exactly when `free / reserved ≤ stop`, or the disk
is downgraded (`free ≤ reserved`) and the level is less severe than ERROR;
otherwise the rolling writer is returned. -/
theorem make_writer_for_degradation_ladder (cfg : Config) (free : ℕ) (level : Level)
    (hres : 0 < cfg.reserced_disk_size) :
    make_writer_for cfg free level = WriterKind.null ↔
      ((free : ℚ) / (cfg.reserced_disk_size : ℚ) ≤ cfg.stop_logging_threshold
        ∨ (free ≤ cfg.reserced_disk_size
            ∧ (level = Level.warn ∨ level = Level.info
                ∨ level = Level.debug ∨ level = Level.trace))) := by
  have hlevel : Level.rank Level.error < level.rank ↔
      (level = Level.warn ∨ level = Level.info ∨ level = Level.debug ∨ level = Level.trace) := by
    cases level <;> simp [Level.rank]
  unfold make_writer_for
  split_ifs with h1 h2
  · simp [h1]
  · simp only [eq_self_iff_true, true_iff]
    exact Or.inr ⟨h2.1, hlevel.mp h2.2⟩
  · simp only [reduceCtorEq, false_iff]
    intro hcontra
    rcases hcontra with hc | ⟨hfree, hl⟩
    · exact h1 hc
    · exact h2 ⟨hfree, hlevel.mpr hl⟩

def cfgC1 : Config :=
  { component_name := "taosx", instance_id := 1, rotation_file_size := 1024,
    reserced_disk_size := 100, compress := false, rotate_count := 30,
    stop_logging_threshold := 1 / 2 }

/-- C1, witness. -/
theorem make_writer_for_degradation_ladder_witness :
    0 < cfgC1.reserced_disk_size ∧
    (make_writer_for cfgC1 200 Level.info = WriterKind.null ↔
      ((200 : ℚ) / (cfgC1.reserced_disk_size : ℚ) ≤ cfgC1.stop_logging_threshold
        ∨ (200 ≤ cfgC1.reserced_disk_size
            ∧ (Level.info = Level.warn ∨ Level.info = Level.info
                ∨ Level.info = Level.debug ∨ Level.info = Level.trace)))) :=
  ⟨by decide, make_writer_for_degradation_ladder cfgC1 200 Level.info (by decide)⟩

/-! ### The rotation decision (`rotate`)

`rotate` runs under the state write lock; its pure content is a function
of the current state, the clock, the size of the open file and the
directory contents.  File handles are identified with the names they were
opened at, and `create_file`'s `create_new` semantics is membership
testing plus consing.  The open-retry loops of the source are bounded
here by a fuel of `|fs| + 1`; `RotateResult.stuck` marks the runs on
which the source itself would retry past every existing file without ever
finding a fresh name (which can only happen in the degenerate self-heal
case that keeps proposing the same base name). -/

structure State where
  next_date : ℤ
  max_seq_id : ℕ
  file_path : String
deriving DecidableEq

structure RotateEnv where
  /-- `Local::now().timestamp()`. -/
  nowTs : ℤ
  /-- `time_format(now)` as a numeric `YYYYMMDD` code. -/
  nowDate : ℕ
  /-- `rotation.next_timestamp(now)`: start of the local day after
  `now + time_delta`, precomputed by the calendar. -/
  nextTs : ℤ
  /-- `writer.metadata().len()` of the currently open file. -/
  curSize : ℕ
  /-- The names present in the log directory. -/
  fs : List String
deriving DecidableEq

inductive RotateResult
  | newFile (st : State) (fs : List String) (path : String)
  | noChange (st : State)
  | stuck
deriving DecidableEq

/-- The `create_file` retry loop: starting at sequence `k`, find the first
candidate name not already present. -/
def findCreate (mk : ℕ → String) (fs : List String) : ℕ → ℕ → Option (ℕ × String)
  | _, 0 => none
  | k, fuel + 1 => if mk k ∈ fs then findCreate mk fs (k + 1) fuel else some (k, mk k)

/-- `max_seq_id` from `src/writer.rs`: the largest sequence number among
files in the directory that parse for the component and instance and
carry today's date (`unwrap_or_default` gives 0 when there are none). -/
def maxSeqId (component : String) (instance_id today : ℕ) (fs : List String) : ℕ :=
  (fs.filterMap (fun n =>
    (parse_filename component instance_id n).bind
      (fun r => if r.1 = today then some r.2 else none))).foldr max 0

/-- `RollingFileAppender::rotate`: time rotation, then size rotation, then
self-heal when the current file has disappeared, else no change.  Note
that the self-heal branch updates `max_seq_id` but not `file_path`,
exactly as the source does. -/
def rotate (cfg : Config) (env : RotateEnv) (st : State) : RotateResult :=
  if st.next_date ≤ env.nowTs then
    match findCreate (fun k => encode_filename cfg.component_name cfg.instance_id env.nowDate k)
        env.fs 0 (env.fs.length + 1) with
    | some (k, name) =>
      RotateResult.newFile
        { next_date := env.nextTs, max_seq_id := k, file_path := name } (name :: env.fs) name
    | none => RotateResult.stuck
  else if cfg.rotation_file_size ≤ env.curSize then
    match findCreate (fun k => suffixed_filename cfg.component_name cfg.instance_id env.nowDate k)
        env.fs (st.max_seq_id + 1) (env.fs.length + 1) with
    | some (k, name) =>
      RotateResult.newFile { st with max_seq_id := k, file_path := name } (name :: env.fs) name
    | none => RotateResult.stuck
  else if st.file_path ∈ env.fs then
    RotateResult.noChange st
  else
    match findCreate
        (fun k => if st.max_seq_id = 0
          then encode_filename cfg.component_name cfg.instance_id env.nowDate 0
          else suffixed_filename cfg.component_name cfg.instance_id env.nowDate k)
        env.fs (maxSeqId cfg.component_name cfg.instance_id env.nowDate env.fs)
        (env.fs.length + 1) with
    | some (k, name) =>
      RotateResult.newFile { st with max_seq_id := k } (name :: env.fs) name
    | none => RotateResult.stuck

def cfgC6 : Config :=
  { component_name := "taosx", instance_id := 1, rotation_file_size := 1024,
    reserced_disk_size := 2048, compress := false, rotate_count := 30,
    stop_logging_threshold := 1 / 2 }

def stC6 : State :=
  { next_date := 100, max_seq_id := 0, file_path := "taosx_1_20240908.log" }

def envC6 : RotateEnv :=
  { nowTs := 50, nowDate := 20240909, nextTs := 86400, curSize := 0, fs := [] }

/-- C6: at a state whose `file_path` (yesterday's file) has been removed
from the directory, the self-heal branch of `rotate` opens today's fresh
file and returns its handle but leaves `state.file_path` at the stale
path, so the open writer is no longer the handle of the file named by
`file_path` — the code violates the claimed invariant. -/
theorem rotate_self_heal_stale_file_path :
    rotate cfgC6 envC6 stC6
      = RotateResult.newFile stC6 ["taosx_1_20240909.log"] "taosx_1_20240909.log"
    ∧ stC6.file_path ≠ "taosx_1_20240909.log" := by
  constructor
  · decide
  · decide

/-! ### The formatting layer (`src/layer.rs`)

`fmt_fields_and_qid` is modelled as the list of tagged segments it pushes
into the thread-local buffer after the timestamp / thread-id / level
prefix; `fmt_fields_and_qid` below is their concatenation.  QIDs are
`ℕ` (the `u64` projection of the embedder's type) and their rendering is
modelled as decimal — the claims are about which value appears, and the
source leaves the textual form to the embedder's `display`.  `RecordVisit`
is modelled for `record_str` visits: the reserved `message` field goes to
the message slot (later values replace earlier ones), every other field is
rendered `format_str(name):format_str(value)`. -/

def escapeChars : List Char → List Char
  | [] => []
  | c :: cs =>
    (if c = '"' then ['\\', '"'] else if c = '\\' then ['\\', '\\'] else [c]) ++ escapeChars cs

/-- Rust's `format!("{value:?}")` on a string slice: the escaped text
surrounded by double quotes (control-character escapes are not modelled;
only the quoting shape matters here). -/
def rustDebugStr (value : String) : String := ⟨'"' :: escapeChars value.data ++ ['"']⟩

/-- `format_str` from `src/layer.rs`: quote values containing a space. -/
def format_str (value : String) : String :=
  if value.data.contains ' ' then rustDebugStr value else value

/-- The `RecordVisit` visitor folded over the `(name, value)` pairs of an
event or span in declaration order. -/
def recordVisit (pairs : List (String × String)) : List String × Option String :=
  pairs.foldl
    (fun acc p =>
      if p.1 = "message" then (acc.1, some p.2)
      else (acc.1 ++ [format_str p.1 ++ ":" ++ format_str p.2], acc.2))
    ([], none)

/-- A span in the event's scope: its name, its QID extension (set by
`on_new_span` or by `set_qid`), and its cached rendered `k:v` fields. -/
structure SpanData where
  name : String
  qid : Option ℕ
  fields : List String
deriving DecidableEq

/-- An event: its level, its recorded string fields in order, and the
source location on its metadata. -/
structure EventData where
  level : Level
  pairs : List (String × String)
  file? : Option String
  line? : Option ℕ
deriving DecidableEq

/-- `on_new_span`: the new span's QID is a clone of the parent's, or
`Q::init()` when there is no parent QID. -/
def on_new_span_qid (qinit : ℕ) (parentQid : Option ℕ) : ℕ := parentQid.getD qinit

/-- The `qid_field` accumulation in `fmt_fields_and_qid`: walking the
scope from the root, each span carrying a QID extension replaces the
candidate. -/
def scopeQid (scope : List SpanData) : Option ℕ :=
  scope.foldl (fun acc sp => match sp.qid with | some q => some q | none => acc) none

/-- The `kvs` vector at the end of the scope walk: the event's own
rendered fields first, then each ancestor span's cached fields,
root-to-leaf. -/
def eventKvs (ev : EventData) (scope : List SpanData) : List String :=
  (recordVisit ev.pairs).1 ++ (scope.map SpanData.fields).flatten

def eventMessage (ev : EventData) : Option String := (recordVisit ev.pairs).2

/-- The span names collected for the `stack:` section, root-to-leaf. -/
def stackNames (scope : List SpanData) : List String :=
  scope.map (fun sp => format_str sp.name)

inductive SegTag
  | qid
  | kvs
  | msg
  | stack
  | loc
deriving DecidableEq

/-- The segments `fmt_fields_and_qid` pushes into the buffer, in order:
the QID (always, exactly once), the joined `k:v` list when nonempty, the
message when present, the stack when the level is DEBUG or TRACE (in
tracing's ordering, `level >= DEBUG`) and the scope is nonempty, and the
location when configured and present. -/
def fmtSegments (withLoc : Bool) (qinit : ℕ) (ev : EventData) (scope : List SpanData) :
    List (SegTag × String) :=
  (SegTag.qid, "QID:" ++ natToDec ((scopeQid scope).getD qinit) ++ " ")
  :: ((if eventKvs ev scope = [] then []
      else [(SegTag.kvs, String.intercalate ", " (eventKvs ev scope) ++ " ")])
    ++ (match eventMessage ev with
      | some m => [(SegTag.msg, m)]
      | none => [])
    ++ (if 3 ≤ ev.level.rank ∧ stackNames scope ≠ [] then
        [(SegTag.stack, " stack:" ++ String.intercalate "->" (stackNames scope))]
      else [])
    ++ (if withLoc then
        match ev.file?, ev.line? with
        | some f, some l => [(SegTag.loc, " at " ++ f ++ ":" ++ natToDec l)]
        | _, _ => []
      else []))

/-- The part of the line after the timestamp / thread id / level prefix. -/
def fmt_fields_and_qid (withLoc : Bool) (qinit : ℕ) (ev : EventData)
    (scope : List SpanData) : String :=
  String.join ((fmtSegments withLoc qinit ev scope).map Prod.snd)

theorem scopeQid_eq_reverse_findSome (scope : List SpanData) :
    scopeQid scope = scope.reverse.findSome? SpanData.qid := by
  induction scope using List.reverseRecOn with
  | nil => rfl
  | append_singleton xs x ih =>
    have hL : scopeQid (xs ++ [x])
        = (match x.qid with | some q => some q | none => scopeQid xs) := by
      rw [scopeQid, List.foldl_append]
      rfl
    rw [hL, List.reverse_append]
    simp only [List.reverse_singleton, List.singleton_append, List.findSome?_cons]
    cases hx : x.qid with
    | some q => rfl
    | none => exact ih

theorem fmtSegments_filter_qid (withLoc : Bool) (qinit : ℕ) (ev : EventData)
    (scope : List SpanData) :
    (fmtSegments withLoc qinit ev scope).filter (fun s => s.1 = SegTag.qid)
      = [(SegTag.qid, "QID:" ++ natToDec ((scopeQid scope).getD qinit) ++ " ")] := by
  simp only [fmtSegments, List.filter_cons, List.filter_append]
  split_ifs <;>
    cases eventMessage ev <;>
      cases ev.file? <;>
        cases ev.line? <;>
          simp_all

theorem fmtSegments_filter_stack (withLoc : Bool) (qinit : ℕ) (ev : EventData)
    (scope : List SpanData) :
    (fmtSegments withLoc qinit ev scope).filter (fun s => s.1 = SegTag.stack)
      = (if 3 ≤ ev.level.rank ∧ stackNames scope ≠ [] then
          [(SegTag.stack, " stack:" ++ String.intercalate "->" (stackNames scope))]
        else []) := by
  simp only [fmtSegments, List.filter_cons, List.filter_append]
  split_ifs <;>
    cases eventMessage ev <;>
      cases ev.file? <;>
        cases ev.line? <;>
          simp_all

/-- C2: every formatted event line carries exactly one QID segment; its
value is the QID of the innermost ancestor holding one (the last `Some`
when scanning the scope leaf-ward), or the `init()` seed when no ancestor
holds one; and at span creation the child inherits the parent's QID or is
seeded with `init()`. -/
theorem event_line_qid_token (withLoc : Bool) (qinit : ℕ) (ev : EventData)
    (scope : List SpanData) (hscope : scope ≠ []) :
    (fmtSegments withLoc qinit ev scope).filter (fun s => s.1 = SegTag.qid)
      = [(SegTag.qid,
          "QID:" ++ natToDec ((scope.reverse.findSome? SpanData.qid).getD qinit) ++ " ")]
  ∧ fmt_fields_and_qid withLoc qinit ev scope
      = String.join ((fmtSegments withLoc qinit ev scope).map Prod.snd)
  ∧ (∀ parentQid : Option ℕ, on_new_span_qid qinit parentQid = parentQid.getD qinit) := by
  refine ⟨?_, rfl, fun _ => rfl⟩
  rw [fmtSegments_filter_qid, scopeQid_eq_reverse_findSome]

def scopeW : List SpanData :=
  [{ name := "outer", qid := none, fields := ["k:kkk"] },
   { name := "inner", qid := some 999, fields := [] }]

def evW : EventData :=
  { level := Level.info, pairs := [("message", "hello")], file? := none, line? := none }

/-- C2, witness. -/
theorem event_line_qid_token_witness :
    scopeW ≠ [] ∧
    ((fmtSegments false 7 evW scopeW).filter (fun s => s.1 = SegTag.qid)
      = [(SegTag.qid,
          "QID:" ++ natToDec ((scopeW.reverse.findSome? SpanData.qid).getD 7) ++ " ")]
    ∧ fmt_fields_and_qid false 7 evW scopeW
        = String.join ((fmtSegments false 7 evW scopeW).map Prod.snd)
    ∧ (∀ parentQid : Option ℕ, on_new_span_qid 7 parentQid = parentQid.getD 7)) :=
  ⟨by decide, event_line_qid_token false 7 evW scopeW (by decide)⟩

/-- C8: for an event with a nonempty span scope, the stack section is
present in the formatted line exactly when the event's level is DEBUG or
TRACE (`level >= DEBUG` in tracing's inverted ordering); it is absent for
INFO, WARN and ERROR. -/
theorem stack_section_iff_debug_trace (withLoc : Bool) (qinit : ℕ) (ev : EventData)
    (scope : List SpanData) (hscope : scope ≠ []) :
    (fmtSegments withLoc qinit ev scope).filter (fun s => s.1 = SegTag.stack) ≠ []
      ↔ (ev.level = Level.debug ∨ ev.level = Level.trace) := by
  rw [fmtSegments_filter_stack]
  have hstack : stackNames scope ≠ [] := by
    cases scope with
    | nil => exact absurd rfl hscope
    | cons a l => simp [stackNames]
  have hrank : 3 ≤ ev.level.rank ↔ (ev.level = Level.debug ∨ ev.level = Level.trace) := by
    cases ev.level <;> simp [Level.rank]
  constructor
  · intro h
    by_cases hc : 3 ≤ ev.level.rank ∧ stackNames scope ≠ []
    · exact hrank.mp hc.1
    · rw [if_neg hc] at h
      exact absurd rfl h
  · intro h
    rw [if_pos ⟨hrank.mpr h, hstack⟩]
    simp

/-- C8, witness. -/
theorem stack_section_iff_debug_trace_witness :
    scopeW ≠ [] ∧
    ((fmtSegments false 7 { evW with level := Level.debug } scopeW).filter
        (fun s => s.1 = SegTag.stack) ≠ []
      ↔ ({ evW with level := Level.debug } : EventData).level = Level.debug
          ∨ ({ evW with level := Level.debug } : EventData).level = Level.trace) :=
  ⟨by decide, stack_section_iff_debug_trace false 7 { evW with level := Level.debug } scopeW
    (by decide)⟩

theorem fmtSegments_filter_kvs (withLoc : Bool) (qinit : ℕ) (ev : EventData)
    (scope : List SpanData) :
    (fmtSegments withLoc qinit ev scope).filter (fun s => s.1 = SegTag.kvs)
      = (if eventKvs ev scope = [] then []
        else [(SegTag.kvs, String.intercalate ", " (eventKvs ev scope) ++ " ")]) := by
  simp only [fmtSegments, List.filter_cons, List.filter_append]
  split_ifs <;>
    cases eventMessage ev <;>
      cases ev.file? <;>
        cases ev.line? <;>
          simp_all

def evC7 : EventData :=
  { level := Level.info, pairs := [("e", "1")], file? := none, line? := none }

def scopeC7 : List SpanData :=
  [{ name := "s", qid := some 1, fields := ["s:2"] }]

/-- C7, counterexample: for an event with its own field `e:1` under a span
carrying the cached field `s:2`, the source renders the k:v section as
`e:1, s:2` — the event's own fields come first and the ancestor fields
are appended after them, not prepended as the claim states. -/
theorem kvs_order_cex :
    eventKvs evC7 scopeC7 = ["e:1", "s:2"]
    ∧ (fmtSegments false 0 evC7 scopeC7).filter (fun s => s.1 = SegTag.kvs)
        = [(SegTag.kvs, "e:1, s:2 ")]
    ∧ (["e:1", "s:2"] : List String) ≠ ["s:2", "e:1"] := by
  refine ⟨by decide, ?_, by decide⟩
  decide

/-- C7, amended: the k:v section is comma-separated; the event's own
fields come first and the fields cached on ancestor spans are appended
after them in root-to-leaf order; and any string value containing a space
is rendered by `format_str` surrounded by double quotes. -/
theorem kvs_section_amended (withLoc : Bool) (qinit : ℕ) (ev : EventData)
    (scope : List SpanData) :
    (eventKvs ev scope ≠ [] →
      (fmtSegments withLoc qinit ev scope).filter (fun s => s.1 = SegTag.kvs)
        = [(SegTag.kvs,
            String.intercalate ", "
              ((recordVisit ev.pairs).1 ++ (scope.map SpanData.fields).flatten) ++ " ")])
  ∧ (∀ v : String, v.data.contains ' ' = true →
      format_str v = ⟨'"' :: escapeChars v.data ++ ['"']⟩) := by
  constructor
  · intro hne
    rw [fmtSegments_filter_kvs, if_neg hne]
    rfl
  · intro v hv
    unfold format_str
    rw [if_pos hv]
    rfl

/-- C7, witness. -/
theorem kvs_section_amended_witness :
    ((fmtSegments false 0 evC7 scopeC7).filter (fun s => s.1 = SegTag.kvs)
      = [(SegTag.kvs,
          String.intercalate ", "
            ((recordVisit evC7.pairs).1 ++ (scopeC7.map SpanData.fields).flatten) ++ " ")])
    ∧ format_str ⟨['a', ' ', 'b']⟩
        = ⟨'"' :: escapeChars (⟨['a', ' ', 'b']⟩ : String).data ++ ['"']⟩ :=
  ⟨(kvs_section_amended false 0 evC7 scopeC7).1 (by decide),
   (kvs_section_amended false 0 evC7 scopeC7).2 ⟨['a', ' ', 'b']⟩ (by decide)⟩

/-! ### The QID header carrier (`src/utils.rs`)

`set_qid` writes `x-qid: {:#018x}` into the header map; `get_qid` reads
the header value, drops its first two characters with `.get(2..)` — note:
without checking that they are `0x` — and parses the remainder with
`u64::from_str_radix(_, 16)`.  The header map is modelled as an
association list whose `insert` replaces any previous entry for the key,
matching `HeaderMap::insert`; values are taken to be visible-ASCII
strings, the regime in which `to_str` succeeds and byte index 2 is a
character boundary. -/

/-- Most-significant-first fixed-width lowercase hex rendering: digit `i`
from the left is `n / 16 ^ (w - 1 - i) % 16`. -/
def hexFixed : ℕ → ℕ → List Char
  | 0, _ => []
  | w + 1, n => Nat.digitChar (n / 16 ^ w % 16) :: hexFixed w n

/-- The hex digit value accepted by `from_str_radix(_, 16)`. -/
def hexVal? (c : Char) : Option ℕ :=
  if '0' ≤ c ∧ c ≤ '9' then some (c.toNat - 48)
  else if 'a' ≤ c ∧ c ≤ 'f' then some (c.toNat - 87)
  else if 'A' ≤ c ∧ c ≤ 'F' then some (c.toNat - 55)
  else none

def parseHexAux : List Char → ℕ → Option ℕ
  | [], acc => some acc
  | c :: cs, acc =>
    match hexVal? c with
    | some d => parseHexAux cs (acc * 16 + d)
    | none => none

/-- `u64::from_str_radix(s, 16)`: optional leading `'+'`, then a nonempty
run of hex digits, erroring on values `≥ 2 ^ 64`. -/
def parseU64Hex (cs : List Char) : Option ℕ :=
  let t := if cs.head? = some '+' then cs.tail else cs
  if t = [] then none
  else
    match parseHexAux t 0 with
    | some v => if v < 2 ^ 64 then some v else none
    | none => none

def qidHeaderKey : String := "x-qid"

/-- `HeaderMap::insert`: any previous value for the key is replaced. -/
def headerInsert (m : List (String × String)) (k v : String) : List (String × String) :=
  (k, v) :: m.filter (fun p => p.1 ≠ k)

def headerGet (m : List (String × String)) (k : String) : Option String :=
  (m.find? (fun p => p.1 = k)).map Prod.snd

/-- `format!("{:#018x}", n)` for a `u64`: `0x` then 16 zero-padded
lowercase hex digits. -/
def hex018 (n : ℕ) : String := ⟨'0' :: 'x' :: hexFixed 16 n⟩

/-- `QidMetadataMut::set_qid` on a header map. -/
def set_qid (m : List (String × String)) (qid : ℕ) : List (String × String) :=
  headerInsert m qidHeaderKey (hex018 qid)

/-- `QidMetadataRef::get_qid` on a header map: `headers.get(key)`, then
`to_str`, then `.get(2..)` (which is `none` for values shorter than two
characters), then `u64::from_str_radix(_, 16)`, all failures mapped to
`None`. -/
def get_qid (m : List (String × String)) : Option ℕ :=
  (headerGet m qidHeaderKey).bind (fun v =>
    if v.data.length < 2 then none else parseU64Hex (v.data.drop 2))

theorem hexVal_digitChar : ∀ d, d < 16 → hexVal? (Nat.digitChar d) = some d := by decide

theorem digitChar_ne_plus : ∀ d, d < 16 → Nat.digitChar d ≠ '+' := by decide

theorem hexFixed_length (w n : ℕ) : (hexFixed w n).length = w := by
  induction w generalizing n with
  | zero => rfl
  | succ w ih => simp [hexFixed, ih]

theorem parseHexAux_hexFixed :
    ∀ (w n acc : ℕ), parseHexAux (hexFixed w n) acc = some (acc * 16 ^ w + n % 16 ^ w) := by
  intro w
  induction w with
  | zero =>
    intro n acc
    simp [hexFixed, parseHexAux, Nat.mod_one]
  | succ w ih =>
    intro n acc
    have hd : n / 16 ^ w % 16 < 16 := Nat.mod_lt _ (by omega)
    simp only [hexFixed, parseHexAux, hexVal_digitChar _ hd]
    rw [ih]
    congr 1
    have hsplit : n % 16 ^ (w + 1) = 16 ^ w * (n / 16 ^ w % 16) + n % 16 ^ w := by
      rw [pow_succ, Nat.mod_mul]
      ring
    rw [hsplit]
    ring

def cexHeaderVal : String := "zz12"

/-- C9, counterexample: `get_qid` never checks the `0x` prefix — it drops
the first two characters and hex-parses the rest — so the header value
`zz12`, which is not `0x` followed by 16 hex digits, still yields
`Some(0x12)` where the claim requires `None`. -/
theorem qid_header_parse_cex :
    get_qid [(qidHeaderKey, cexHeaderVal)] = some 18
    ∧ cexHeaderVal.data.take 2 ≠ ['0', 'x']
    ∧ cexHeaderVal.data.length ≠ 18 := by
  refine ⟨?_, by decide, by decide⟩
  decide

/-- C9, amended: `get_qid` drops the first two characters of the `x-qid`
value and accepts exactly the strings whose remainder hex-parses as a
`u64`; in particular every value written by `set_qid` (`0x` + 16 hex
digits) round-trips to the original QID, an absent header yields `None`
rather than an error, and `set_qid` replaces any prior value. -/
theorem qid_header_amended (m : List (String × String)) (v : ℕ) (hv : v < 2 ^ 64) :
    get_qid (set_qid m v) = some v
    ∧ (headerGet m qidHeaderKey = none → get_qid m = none)
    ∧ headerGet (set_qid m v) qidHeaderKey = some (hex018 v) := by
  have hget : headerGet (set_qid m v) qidHeaderKey = some (hex018 v) := by
    simp [set_qid, headerInsert, headerGet]
  refine ⟨?_, ?_, hget⟩
  · rw [get_qid, hget]
    have hdata : (hex018 v).data = '0' :: 'x' :: hexFixed 16 v := rfl
    have hlen : ¬ (hex018 v).data.length < 2 := by
      rw [hdata]
      simp [hexFixed_length]
    rw [Option.some_bind, if_neg hlen]
    have hdrop : (hex018 v).data.drop 2 = hexFixed 16 v := rfl
    rw [hdrop]
    have hne : hexFixed 16 v ≠ [] := by
      intro hc
      have := hexFixed_length 16 v
      rw [hc] at this
      simp at this
    have hhead : (hexFixed 16 v).head? ≠ some '+' := by
      show (Nat.digitChar (v / 16 ^ 15 % 16) :: hexFixed 15 v).head? ≠ some '+'
      simp only [List.head?_cons, ne_eq, Option.some.injEq]
      exact digitChar_ne_plus _ (Nat.mod_lt _ (by omega))
    rw [parseU64Hex]
    rw [if_neg hhead, if_neg (by simpa using hne)]
    rw [parseHexAux_hexFixed 16 v 0]
    have hmod : v % 16 ^ 16 = v := Nat.mod_eq_of_lt (by norm_num; omega)
    simp only [Nat.zero_mul, Nat.zero_add, hmod]
    rw [if_pos hv]
  · intro habs
    rw [get_qid, habs]
    rfl

/-- C9, witness. -/
theorem qid_header_amended_witness :
    (255 : ℕ) < 2 ^ 64 ∧
    (get_qid (set_qid [] 255) = some 255
      ∧ (headerGet [] qidHeaderKey = none → get_qid [] = none)
      ∧ headerGet (set_qid [] 255) qidHeaderKey = some (hex018 255)) :=
  ⟨by decide, qid_header_amended [] 255 (by decide)⟩

end Taoslog
